import Mathlib

/-!
Verification of the FAIR-CLI glob resolver, CLI error-propagation boundary,
registry server launch behaviour and `.fair` root discovery, as a shallow
embedding of the Python sources.

Data model: a configuration entry (a Python `dict` mapping string keys to
string values) is embedded as an association list of string pairs in
insertion order; Python dict equality compares mapping contents, not order.
-/

abbrev Entry := List (String × String)

/-- Lookup of `d[k]` on a Python dict embedded as an association list:
the value of the first pair whose key equals `k`, if any. -/
def entryGet (e : Entry) (k : String) : Option String :=
  match e.find? (fun kv => kv.1 == k) with
  | some kv => some kv.2
  | none => none

/-- Assignment `d[k] = v` on a dict whose key `k` is already present:
the value at `k` is replaced in place and insertion order is kept. -/
def entrySet (e : Entry) (k v : String) : Entry :=
  e.map (fun kv => if kv.1 == k then (kv.1, v) else kv)

/-- Python dict equality on the embedding: the two mappings agree on every
key of either (full structural equality of mapping contents). -/
def entryEq (a b : Entry) : Bool :=
  a.all (fun kv => entryGet b kv.1 == some kv.2) &&
    b.all (fun kv => entryGet a kv.1 == some kv.2)

/-- A Python dict cannot carry the same key twice: well-formed embedded
entries have pairwise distinct keys. -/
def entryWF (e : Entry) : Prop :=
  (e.map Prod.fst).Nodup

instance (e : Entry) : Decidable (entryWF e) := by
  unfold entryWF
  infer_instance

/-- Failure conditions raised inside `glob_read_write`
(`fair/parsing/globbing.py`): `fdp_exc.NotImplementedError` for an entry
with more than one globbable value, and Python's `KeyError` when a registry
result row lacks the search key. -/
inductive FAIRCLIError where
  | notImplementedError
  | keyError
deriving DecidableEq, Repr

/-- The registry query interface `fdp_reg_req.get(uri, object_kind, params)`
from `fair.registry.requests` (not under src): an oracle from the URI, the
target object kind and the query parameters to the list of result rows. -/
abbrev Registry := String → String → List (String × String) → List Entry

/-- Modelled from the spec: `fair.utilities.remove_dictlist_dupes` is not
under src; the spec says post-processing deduplicates the accumulated result
list by full structural equality of each entry (mapping contents),
preserving first-seen order.  `seen` holds the entries already kept. -/
def dedupGo (seen : List Entry) : List Entry → List Entry
  | [] => []
  | e :: rest =>
    if seen.any (fun x => entryEq x e) then dedupGo seen rest
    else e :: dedupGo (seen ++ [e]) rest

/-- Modelled from the spec: first-seen-order deduplication under full
structural equality of entries, standing in for
`fair.utilities.remove_dictlist_dupes`. -/
def remove_dictlist_dupes (l : List Entry) : List Entry :=
  dedupGo [] l

/-- Each entry appended twice in order, the shape `_parsed` takes on a
wildcard-free input when `remove_wildcard` is false. -/
def dupEach : List Entry → List Entry
  | [] => []
  | e :: rest => e :: e :: dupEach rest

/-- The `for result in _results` loop of `glob_read_write`
(globbing.py lines 96-99): for each result row, deep-copy the entry, swap
the globbable value for `result[search_key]` and append the clone; a row
without the search key raises `KeyError`. -/
def collectClones (entry : Entry) (key_glob search_key : String) :
    List Entry → Except FAIRCLIError (List Entry)
  | [] => .ok []
  | result :: rest =>
    match entryGet result search_key with
    | none => .error .keyError
    | some v =>
      match collectClones entry key_glob search_key rest with
      | .ok clones => .ok (entrySet entry key_glob v :: clones)
      | .error e => .error e

/-- The `for entry in config_dict_sub` loop of `glob_read_write`
(globbing.py lines 65-99), accumulating into `parsed` (the `_parsed` list).
The source checks `len(_glob_vals) > 1` first, then `== 0`; the case split
below on the filtered list is the same function of the entry. -/
def globLoop (uri : String) (registry : Registry) (search_key : String)
    (remove_wildcard : Bool) :
    List Entry → List Entry → Except FAIRCLIError (List Entry)
  | [], parsed => .ok parsed
  | entry :: rest, parsed =>
    -- keep the wildcard version unless remove_wildcard
    let parsed1 := if remove_wildcard then parsed else parsed ++ [entry]
    match entry.filter (fun kv => kv.2.toList.contains '*') with
    | [] =>
      -- no globbables: keep existing statement and continue
      globLoop uri registry search_key remove_wildcard rest (parsed1 ++ [entry])
    | (key_glob, globbable) :: [] =>
      match collectClones entry key_glob search_key
          (registry uri key_glob [(search_key, globbable)]) with
      | .ok clones =>
        globLoop uri registry search_key remove_wildcard rest (parsed1 ++ clones)
      | .error e => .error e
    | _ :: _ :: _ =>
      -- only one key-value pair in an entry may contain a globbable value
      .error .notImplementedError

/-- `glob_read_write(local_repo, config_dict_sub, search_key, local_glob,
remove_wildcard)` from `fair/parsing/globbing.py`.  The configuration
lookups `fdp_conf.get_local_uri()` and `fdp_conf.get_remote_uri(local_repo)`
(from `fair.configuration`, not under src) are passed in as the parameters
`get_local_uri` and `get_remote_uri`, and the registry query function as
`registry`. -/
def glob_read_write (get_local_uri : String) (get_remote_uri : String → String)
    (registry : Registry) (local_repo : String)
    (config_dict_sub : List Entry) (search_key : String)
    (local_glob : Bool) (remove_wildcard : Bool) :
    Except FAIRCLIError (List Entry) :=
  let uri := if local_glob then get_local_uri else get_remote_uri local_repo
  match globLoop uri registry search_key remove_wildcard config_dict_sub [] with
  | .ok parsed => .ok (remove_dictlist_dupes parsed)
  | .error e => .error e

/-!
CLI command boundary (`fair/cli.py`).  Every command wraps its body in
`try ... except fdp_exc.FAIRCLIException as e: e.err_print();
if e.level.lower() == "error": sys.exit(e.exit_code)`.  A command body
either completes or raises a `FAIRCLIException` carrying a severity level
string and an exit code (the exception class itself, `fair.exceptions`, is
not under src; only the two fields the handler reads are modelled).
-/

/-- Python's `str.lower()` on the severity strings the handler compares:
lowercase every character. -/
def str_lower (s : String) : String :=
  ⟨s.data.map Char.toLower⟩

/-- Outcome of a CLI command body: normal completion, or a raised
`FAIRCLIException` with its `level` and `exit_code` attributes. -/
inductive CmdOutcome where
  | completed
  | raised (level : String) (exit_code : Nat)

/-- Result observable at the process boundary: whether the exception message
was printed (`e.err_print()`) and the process exit code. -/
structure CLIResult where
  printed : Bool
  exitCode : Nat
deriving DecidableEq, Repr

/-- The `except FAIRCLIException` handler shared by the CLI commands
(`init`, `start`, `stop`, ...): print the message, then exit with the
exception's exit code only when `e.level.lower() == "error"`; otherwise the
handler falls through and the process exits zero. -/
def fair_command_boundary (outcome : CmdOutcome) : CLIResult :=
  match outcome with
  | .completed => ⟨false, 0⟩
  | .raised level exit_code =>
    if str_lower level == "error" then ⟨true, exit_code⟩ else ⟨true, 0⟩

/-!
Registry Process Manager launch (`fair.registry.server.launch_server`, not
under src; only its tests are).
-/

/-- Result reported by a launch attempt. -/
inductive LaunchOutcome where
  | existingInstance
  | started
  | failedTerminated
deriving DecidableEq, Repr

/-- The Server Process Record state of one local state directory: the
recorded port of the active server, if any (the record file either exists
with one port or does not exist, so at most one active record is
representable), together with the number of subprocess spawns performed. -/
structure RegistryState where
  record : Option Nat
  spawnCount : Nat
deriving DecidableEq, Repr

/-- Modelled from the spec: `fair.registry.server.launch_server` is not
under src.  Per the spec, launch first checks whether a server is already
answering health checks at the configured URL; if so the operation is a
no-op and reports the existing instance.  Otherwise it spawns the server
subprocess on the chosen port, records the Server Process Record, and polls
the health endpoint up to `attempts` times; on exhaustion the spawned
process is terminated, the record invalidated and the launch fails.
`already_healthy` is the initial health probe; `health_after_spawn t` is the
probe outcome on poll attempt `t`. -/
def launch_server (already_healthy : Bool) (health_after_spawn : Nat → Bool)
    (attempts port : Nat) (s : RegistryState) : RegistryState × LaunchOutcome :=
  if already_healthy then (s, .existingInstance)
  else
    let spawned : RegistryState := ⟨some port, s.spawnCount + 1⟩
    if (List.range attempts).any health_after_spawn then (spawned, .started)
    else (⟨none, spawned.spawnCount⟩, .failedTerminated)

/-!
Locating the repository root (`fair/common.py`, `find_fair_root`).  A file
system path is embedded as its list of components from the root, so
`pathlib.Path(p).parent` is `List.dropLast` (and the parent of the file
system root is itself, as in `pathlib`).  `exists_fair p` embeds
`os.path.exists(os.path.join(p, FAIR_FOLDER))`, and
`os.path.dirname(os.path.join(p, '.fair'))` is `p` itself.

The `while` loop need not terminate, so it is embedded with explicit fuel:
`none` means the loop is still running after `fuel` iterations, `some r`
that the function returned, with `r = none` for the empty-string return and
`r = some p` for the directory `p`.

The loop condition compares `_current_dir != pathlib.Path.home()`.  On the
first iteration `_current_dir` is the `str` argument while `Path.home()` is
a `Path`; in Python a `str` never equals a `Path`, so the first comparison
is unequal even when the start directory is the home directory.  The flag
`is_str` records whether the current directory is still the original `str`.
-/

def find_fair_root (exists_fair : List String → Bool) (home : List String) :
    Nat → List String → Bool → Option (Option (List String))
  | 0, _, _ => none
  | fuel + 1, cur, is_str =>
    if !is_str && cur == home then some none
    else if exists_fair cur then some (some cur)
    else find_fair_root exists_fair home fuel cur.dropLast false

/-- The claim's reading of `find_fair_root`: walk upward from the start
directory and return the nearest directory containing `.fair`, considering
the start directory and its ancestors strictly below the home directory,
or the empty-string result (`none`) when the home directory is reached
without a hit.  Fuel is as in `find_fair_root`. -/
def nearest_fair_ancestor (exists_fair : List String → Bool)
    (home : List String) : Nat → List String → Option (List String)
  | 0, _ => none
  | fuel + 1, cur =>
    if cur == home then none
    else if exists_fair cur then some cur
    else nearest_fair_ancestor exists_fair home fuel cur.dropLast

/-!
Heap model of `glob_read_write`, for its frame behaviour.  Python dicts are
mutable heap objects: the input list holds references (addresses) to entry
dicts, `copy.deepcopy(entry)` allocates a fresh cell, and
`_entry_dict[_key_glob] = ...` mutates that fresh cell in place.  The heap
is a list of cells addressed by index; allocation appends, so an address is
fresh exactly when it is at least the pre-call heap size.
-/

structure Heap where
  cells : List Entry
deriving DecidableEq, Repr

/-- Dereference an entry address. -/
def heapLoad (h : Heap) (a : Nat) : Entry :=
  h.cells.getD a []

/-- Allocate a new cell (`copy.deepcopy`): append it and return its
address. -/
def heapAlloc (h : Heap) (e : Entry) : Heap × Nat :=
  (⟨h.cells ++ [e]⟩, h.cells.length)

/-- In-place update of the dict at address `a`
(`_entry_dict[_key_glob] = result[search_key]`). -/
def heapStore (h : Heap) (a : Nat) (e : Entry) : Heap :=
  ⟨h.cells.set a e⟩

/-- Heap version of the `for result in _results` loop: per row, deep-copy
the source entry into a fresh cell, mutate the fresh cell's globbable key,
and collect the clone's address. -/
def cloneLoopHeap (entry : Entry) (key_glob search_key : String) :
    List Entry → Heap → Except FAIRCLIError (Heap × List Nat)
  | [], h => .ok (h, [])
  | result :: rest, h =>
    match entryGet result search_key with
    | none => .error .keyError
    | some v =>
      let alloc := heapAlloc h entry
      let h2 := heapStore alloc.1 alloc.2 (entrySet entry key_glob v)
      match cloneLoopHeap entry key_glob search_key rest h2 with
      | .ok hc => .ok (hc.1, alloc.2 :: hc.2)
      | .error e => .error e

/-- Heap version of the `for entry in config_dict_sub` loop: the input is a
list of entry addresses, non-expanded entries are appended to `_parsed` as
the same reference (alias), and clones are appended as fresh addresses. -/
def globLoopHeap (uri : String) (registry : Registry) (search_key : String)
    (remove_wildcard : Bool) :
    List Nat → List Nat → Heap → Except FAIRCLIError (Heap × List Nat)
  | [], parsed, h => .ok (h, parsed)
  | a :: rest, parsed, h =>
    let entry := heapLoad h a
    let parsed1 := if remove_wildcard then parsed else parsed ++ [a]
    match entry.filter (fun kv => kv.2.toList.contains '*') with
    | [] =>
      globLoopHeap uri registry search_key remove_wildcard rest (parsed1 ++ [a]) h
    | (key_glob, globbable) :: [] =>
      match cloneLoopHeap entry key_glob search_key
          (registry uri key_glob [(search_key, globbable)]) h with
      | .ok hc =>
        globLoopHeap uri registry search_key remove_wildcard rest (parsed1 ++ hc.2) hc.1
      | .error e => .error e
    | _ :: _ :: _ => .error .notImplementedError

/-- Modelled from the spec, by reference: first-seen-order deduplication of
the accumulated addresses under full structural equality of the referenced
entries, the heap view of `remove_dictlist_dupes`. -/
def dedupAddrsGo (h : Heap) (seen : List Entry) : List Nat → List Nat
  | [] => []
  | a :: rest =>
    if seen.any (fun x => entryEq x (heapLoad h a)) then dedupAddrsGo h seen rest
    else a :: dedupAddrsGo h (seen ++ [heapLoad h a]) rest

/-- Heap version of `glob_read_write`: runs the loop on the addresses of the
input entries and deduplicates the accumulated addresses. -/
def glob_read_write_heap (get_local_uri : String)
    (get_remote_uri : String → String) (registry : Registry)
    (local_repo : String) (config_dict_sub : List Nat) (search_key : String)
    (local_glob : Bool) (remove_wildcard : Bool) (h : Heap) :
    Except FAIRCLIError (Heap × List Nat) :=
  let uri := if local_glob then get_local_uri else get_remote_uri local_repo
  match globLoopHeap uri registry search_key remove_wildcard
      config_dict_sub [] h with
  | .ok hp => .ok (hp.1, dedupAddrsGo hp.1 [] hp.2)
  | .error e => .error e

/-!
Sanity checks: the spec's concrete scenarios evaluated on the embedding.
-/

example :
    glob_read_write "local" (fun _ => "remote")
      (fun _ _ _ => [[("name", "dataset-1")], [("name", "dataset-2")]])
      "repo" [[("name", "dataset-*")]] "name" true true =
      .ok [[("name", "dataset-1")], [("name", "dataset-2")]] := by
  rfl

example :
    glob_read_write "local" (fun _ => "remote")
      (fun _ _ _ => [[("name", "dataset-1")], [("name", "dataset-2")]])
      "repo" [[("name", "dataset-*")]] "name" true false =
      .ok [[("name", "dataset-*")], [("name", "dataset-1")], [("name", "dataset-2")]] := by
  rfl

example :
    glob_read_write "local" (fun _ => "remote") (fun _ _ _ => [])
      "repo" [[("a", "x*"), ("b", "y*")]] "name" true false =
      .error .notImplementedError := by
  rfl

example :
    glob_read_write "local" (fun _ => "remote") (fun _ _ _ => [])
      "repo" [[("a", "x")], [("a", "x")], [("b", "y")]] "name" true false =
      .ok [[("a", "x")], [("b", "y")]] := by
  rfl

example :
    find_fair_root (fun p => p == ["home", "u", "proj"]) ["home", "u"] 4
      ["home", "u", "proj", "sub"] true = some (some ["home", "u", "proj"]) := by
  rfl

example :
    find_fair_root (fun _ => false) ["home", "u"] 4
      ["home", "u", "proj", "sub"] true = some none := by
  rfl

example :
    find_fair_root (fun p => p == ["home", "u"]) ["home", "u"] 3
      ["home", "u"] true = some (some ["home", "u"]) := by
  rfl

example :
    glob_read_write_heap "local" (fun _ => "remote")
      (fun _ _ _ => [[("name", "dataset-1")], [("name", "dataset-2")]])
      "repo" [0] "name" true false (⟨[[("name", "dataset-*")]]⟩ : Heap) =
      .ok (⟨[[("name", "dataset-*")], [("name", "dataset-1")],
        [("name", "dataset-2")]]⟩, [0, 1, 2]) := by
  rfl

/-! Basic lemmas about the dict embedding. -/

theorem entryGet_of_mem (e : Entry) : ∀ (k v : String), entryWF e →
    (k, v) ∈ e → entryGet e k = some v := by
  induction e with
  | nil => intro k v _ hm; simp at hm
  | cons p rest ih =>
    intro k v hWF hm
    have hnodup : p.1 ∉ rest.map Prod.fst ∧ (rest.map Prod.fst).Nodup := by
      unfold entryWF at hWF
      rw [List.map_cons, List.nodup_cons] at hWF
      exact hWF
    by_cases hpk : p.1 = k
    · have hb : (p.1 == k) = true := beq_iff_eq.mpr hpk
      have hget : entryGet (p :: rest) k = some p.2 := by
        simp [entryGet, List.find?, hb]
      rcases List.mem_cons.mp hm with hh | ht
      · rw [hget, ← hh]
      · exfalso
        apply hnodup.1
        rw [hpk]
        exact List.mem_map.mpr ⟨(k, v), ht, rfl⟩
    · have hb : (p.1 == k) = false := beq_eq_false_iff_ne.mpr hpk
      have hget : entryGet (p :: rest) k = entryGet rest k := by
        simp [entryGet, List.find?, hb]
      rcases List.mem_cons.mp hm with hh | ht
      · exact absurd (congrArg Prod.fst hh.symm) hpk
      · rw [hget]
        exact ih k v hnodup.2 ht

theorem entryEq_refl (e : Entry) (hWF : entryWF e) : entryEq e e = true := by
  unfold entryEq
  rw [Bool.and_eq_true]
  constructor <;>
  · apply List.all_eq_true.mpr
    intro kv hkv
    have : (kv.1, kv.2) ∈ e := by
      rw [Prod.mk.eta]
      exact hkv
    rw [entryGet_of_mem e kv.1 kv.2 hWF this]
    simp

theorem entrySet_map_fst (e : Entry) (k v : String) :
    (entrySet e k v).map Prod.fst = e.map Prod.fst := by
  unfold entrySet
  rw [List.map_map]
  apply List.map_congr_left
  intro kv _
  simp only [Function.comp_apply]
  split <;> rfl

theorem entryWF_entrySet (e : Entry) (k v : String) (hWF : entryWF e) :
    entryWF (entrySet e k v) := by
  unfold entryWF
  rw [entrySet_map_fst]
  exact hWF

/-! Lemmas about the spec-modelled deduplication. -/

theorem dedupGo_sublist (l : List Entry) : ∀ seen, List.Sublist (dedupGo seen l) l := by
  induction l with
  | nil => intro seen; simp [dedupGo]
  | cons e rest ih =>
    intro seen
    cases hany : seen.any (fun x => entryEq x e) with
    | true =>
      simp only [dedupGo, hany, if_pos]
      exact (ih seen).cons e
    | false =>
      simp only [dedupGo, hany, Bool.false_eq_true, if_neg, not_false_iff]
      exact (ih (seen ++ [e])).cons₂ e

theorem dedupGo_pairwise (l : List Entry) : ∀ seen,
    (dedupGo seen l).Pairwise (fun a b => entryEq a b = false) ∧
      ∀ x ∈ dedupGo seen l, ∀ s ∈ seen, entryEq s x = false := by
  induction l with
  | nil => intro seen; simp [dedupGo]
  | cons e rest ih =>
    intro seen
    cases hany : seen.any (fun x => entryEq x e) with
    | true =>
      simp only [dedupGo, hany, if_pos]
      exact ih seen
    | false =>
      have hfresh : ∀ s ∈ seen, entryEq s e = false := by
        intro s hs
        cases hb : entryEq s e with
        | false => rfl
        | true =>
          have htrue : (seen.any fun x => entryEq x e) = true :=
            List.any_eq_true.mpr ⟨s, hs, hb⟩
          exact absurd htrue (by simp [hany])
      simp only [dedupGo, hany, Bool.false_eq_true, if_neg, not_false_iff]
      obtain ⟨ihp, ihs⟩ := ih (seen ++ [e])
      refine ⟨List.pairwise_cons.mpr ⟨?_, ihp⟩, ?_⟩
      · intro b hb
        exact ihs b hb e (by simp)
      · intro x hx s hs
        rcases List.mem_cons.mp hx with rfl | hx'
        · exact hfresh s hs
        · exact ihs x hx' s (by simp [hs])

theorem dedupGo_complete (l : List Entry) : ∀ seen, (∀ e ∈ l, entryWF e) →
    ∀ e ∈ l, (∃ d ∈ dedupGo seen l, entryEq d e = true) ∨
      ∃ s ∈ seen, entryEq s e = true := by
  induction l with
  | nil => intro seen _ e he; simp at he
  | cons x rest ih =>
    intro seen hWF e he
    have hWFr : ∀ a ∈ rest, entryWF a := fun a ha => hWF a (List.mem_cons_of_mem _ ha)
    cases hany : seen.any (fun y => entryEq y x) with
    | true =>
      simp only [dedupGo, hany, if_pos]
      rcases List.mem_cons.mp he with rfl | he'
      · right
        obtain ⟨s, hs, hse⟩ := List.any_eq_true.mp hany
        exact ⟨s, hs, hse⟩
      · exact ih seen hWFr e he'
    | false =>
      simp only [dedupGo, hany, Bool.false_eq_true, if_neg, not_false_iff]
      rcases List.mem_cons.mp he with rfl | he'
      · left
        exact ⟨e, List.mem_cons_self _ _, entryEq_refl e (hWF e (List.mem_cons_self _ _))⟩
      · rcases ih (seen ++ [x]) hWFr e he' with ⟨d, hd, hde⟩ | ⟨s, hs, hse⟩
        · exact .inl ⟨d, List.mem_cons_of_mem _ hd, hde⟩
        · rcases List.mem_append.mp hs with hs' | hs''
          · exact .inr ⟨s, hs', hse⟩
          · left
            have : s = x := by simpa using hs''
            subst this
            exact ⟨s, List.mem_cons_self _ _, hse⟩

theorem dedupGo_keeps_first : ∀ (pre seen : List Entry) (e : Entry) (post : List Entry),
    (∀ x ∈ seen, entryEq x e = false) → (∀ x ∈ pre, entryEq x e = false) →
    e ∈ dedupGo seen (pre ++ e :: post) := by
  intro pre
  induction pre with
  | nil =>
    intro seen e post hseen _
    have hany : seen.any (fun x => entryEq x e) = false := by
      apply List.any_eq_false.mpr
      intro x hx
      simp [hseen x hx]
    simp only [List.nil_append, dedupGo, hany, Bool.false_eq_true, if_neg,
      not_false_iff]
    exact List.mem_cons_self _ _
  | cons p pre' ih =>
    intro seen e post hseen hpre
    rw [List.cons_append]
    cases hany : seen.any (fun x => entryEq x p) with
    | true =>
      simp only [dedupGo, hany, if_pos]
      exact ih seen e post hseen (fun x hx => hpre x (List.mem_cons_of_mem _ hx))
    | false =>
      simp only [dedupGo, hany, Bool.false_eq_true, if_neg, not_false_iff]
      apply List.mem_cons_of_mem
      apply ih (seen ++ [p]) e post
      · intro x hx
        rcases List.mem_append.mp hx with hx' | hx''
        · exact hseen x hx'
        · have : x = p := by simpa using hx''
          subst this
          exact hpre x (List.mem_cons_self _ _)
      · exact fun x hx => hpre x (List.mem_cons_of_mem _ hx)

theorem dedupGo_of_pairwise (l : List Entry) : ∀ seen,
    (∀ x ∈ l, ∀ s ∈ seen, entryEq s x = false) →
    l.Pairwise (fun a b => entryEq a b = false) → dedupGo seen l = l := by
  induction l with
  | nil => intro seen _ _; rfl
  | cons e rest ih =>
    intro seen hseen hpw
    have hany : seen.any (fun x => entryEq x e) = false := by
      apply List.any_eq_false.mpr
      intro x hx
      simp [hseen e (List.mem_cons_self _ _) x hx]
    rw [List.pairwise_cons] at hpw
    simp only [dedupGo, hany, Bool.false_eq_true, if_neg, not_false_iff,
      List.cons.injEq, true_and]
    apply ih (seen ++ [e])
    · intro x hx s hs
      rcases List.mem_append.mp hs with h1 | h2
      · exact hseen x (List.mem_cons_of_mem _ hx) s h1
      · have : s = e := by simpa using h2
        subst this
        exact hpw.1 x hx
    · exact hpw.2

theorem dedupGo_dupEach (l : List Entry) : ∀ seen, (∀ e ∈ l, entryWF e) →
    dedupGo seen (dupEach l) = dedupGo seen l := by
  induction l with
  | nil => intro seen _; rfl
  | cons e rest ih =>
    intro seen hWF
    have hWFr : ∀ a ∈ rest, entryWF a := fun a ha => hWF a (List.mem_cons_of_mem _ ha)
    cases hany : seen.any (fun x => entryEq x e) with
    | true =>
      simp only [dupEach, dedupGo, hany, if_pos]
      exact ih seen hWFr
    | false =>
      have hany2 : (seen ++ [e]).any (fun x => entryEq x e) = true :=
        List.any_eq_true.mpr
          ⟨e, by simp, entryEq_refl e (hWF e (List.mem_cons_self _ _))⟩
      simp only [dupEach, dedupGo, hany, hany2, Bool.false_eq_true, if_neg,
        not_false_iff, if_pos, List.cons.injEq, true_and]
      exact ih (seen ++ [e]) hWFr

/-! Lemmas about the glob resolution loop. -/

theorem collectClones_ok (entry : Entry) (key_glob search_key : String)
    (rows : List Entry)
    (hrows : ∀ r ∈ rows, (entryGet r search_key).isSome = true) :
    collectClones entry key_glob search_key rows =
      .ok (rows.map (fun r =>
        entrySet entry key_glob ((entryGet r search_key).getD ""))) := by
  induction rows with
  | nil => rfl
  | cons r rest ih =>
    obtain ⟨v, hv⟩ :=
      Option.isSome_iff_exists.mp (hrows r (List.mem_cons_self _ _))
    have ihr := ih (fun x hx => hrows x (List.mem_cons_of_mem _ hx))
    simp [collectClones, hv, ihr]

theorem collectClones_WF (entry : Entry) (key_glob search_key : String)
    (hWF : entryWF entry) :
    ∀ (rows clones : List Entry),
      collectClones entry key_glob search_key rows = .ok clones →
      ∀ c ∈ clones, entryWF c := by
  intro rows
  induction rows with
  | nil =>
    intro clones h c hc
    simp only [collectClones] at h
    cases h
    simp at hc
  | cons r rest ih =>
    intro clones h c hc
    cases hg : entryGet r search_key with
    | none => simp [collectClones, hg] at h
    | some v =>
      cases hrec : collectClones entry key_glob search_key rest with
      | error e => simp [collectClones, hg, hrec] at h
      | ok cl =>
        simp only [collectClones, hg, hrec] at h
        cases h
        rcases List.mem_cons.mp hc with rfl | hc'
        · exact entryWF_entrySet entry key_glob v hWF
        · exact ih cl hrec c hc'

theorem globLoop_nowild (uri : String) (registry : Registry)
    (search_key : String) (rmw : Bool) (l : List Entry) : ∀ parsed,
    (∀ e ∈ l, e.filter (fun kv => kv.2.toList.contains '*') = []) →
    globLoop uri registry search_key rmw l parsed =
      .ok (parsed ++ if rmw then l else dupEach l) := by
  induction l with
  | nil =>
    intro parsed _
    cases rmw <;> simp [globLoop, dupEach]
  | cons e rest ih =>
    intro parsed hnw
    have he := hnw e (List.mem_cons_self _ _)
    have hr : ∀ x ∈ rest, List.filter (fun kv => kv.2.toList.contains '*') x = [] :=
      fun x hx => hnw x (List.mem_cons_of_mem _ hx)
    simp only [globLoop, he]
    rw [ih _ hr]
    cases rmw <;> simp [dupEach]

theorem globLoop_multiwild (uri : String) (registry : Registry)
    (search_key : String) (rmw : Bool) (l : List Entry) : ∀ parsed,
    (∀ u k p, ∀ r ∈ registry u k p, (entryGet r search_key).isSome = true) →
    (∃ e ∈ l, 2 ≤ (e.filter (fun kv => kv.2.toList.contains '*')).length) →
    globLoop uri registry search_key rmw l parsed =
      .error .notImplementedError := by
  induction l with
  | nil =>
    intro parsed _ hex
    simp at hex
  | cons e rest ih =>
    intro parsed hreg hex
    obtain ⟨x, hx, hlen⟩ := hex
    cases hfe : e.filter (fun kv => kv.2.toList.contains '*') with
    | nil =>
      rcases List.mem_cons.mp hx with rfl | hx'
      · rw [hfe] at hlen
        simp at hlen
      · simp only [globLoop, hfe]
        exact ih _ hreg ⟨x, hx', hlen⟩
    | cons kv tail =>
      obtain ⟨kg, gv⟩ := kv
      cases tail with
      | nil =>
        rcases List.mem_cons.mp hx with rfl | hx'
        · rw [hfe] at hlen
          simp at hlen
        · have hok := collectClones_ok e kg search_key
            (registry uri kg [(search_key, gv)]) (hreg _ _ _)
          simp only [globLoop, hfe, hok]
          exact ih _ hreg ⟨x, hx', hlen⟩
      | cons kv2 tail2 =>
        simp only [globLoop, hfe]

theorem globLoop_WF (uri : String) (registry : Registry) (search_key : String)
    (rmw : Bool) (l : List Entry) : ∀ (parsed out : List Entry),
    (∀ e ∈ parsed, entryWF e) → (∀ e ∈ l, entryWF e) →
    globLoop uri registry search_key rmw l parsed = .ok out →
    ∀ e ∈ out, entryWF e := by
  induction l with
  | nil =>
    intro parsed out hp _ heq
    simp only [globLoop] at heq
    cases heq
    exact hp
  | cons e rest ih =>
    intro parsed out hp hl heq
    have hWFe := hl e (List.mem_cons_self _ _)
    have hWFr : ∀ a ∈ rest, entryWF a := fun a ha => hl a (List.mem_cons_of_mem _ ha)
    have hp1 : ∀ a ∈ (if rmw then parsed else parsed ++ [e]), entryWF a := by
      cases rmw with
      | true => simpa using hp
      | false =>
        simp only [if_neg, Bool.false_eq_true, not_false_iff]
        intro a ha
        rcases List.mem_append.mp ha with h1 | h2
        · exact hp a h1
        · have : a = e := by simpa using h2
          subst this
          exact hWFe
    cases hfe : e.filter (fun kv => kv.2.toList.contains '*') with
    | nil =>
      simp only [globLoop, hfe] at heq
      apply ih _ out _ hWFr heq
      intro a ha
      rcases List.mem_append.mp ha with h1 | h2
      · exact hp1 a h1
      · have : a = e := by simpa using h2
        subst this
        exact hWFe
    | cons kv tail =>
      obtain ⟨kg, gv⟩ := kv
      cases tail with
      | nil =>
        cases hcc : collectClones e kg search_key
            (registry uri kg [(search_key, gv)]) with
        | error err =>
          simp only [globLoop, hfe, hcc] at heq
          exact Except.noConfusion heq
        | ok clones =>
          simp only [globLoop, hfe, hcc] at heq
          apply ih _ out _ hWFr heq
          intro a ha
          rcases List.mem_append.mp ha with h1 | h2
          · exact hp1 a h1
          · exact collectClones_WF e kg search_key hWFe _ clones hcc a h2
      | cons kv2 tail2 =>
        simp only [globLoop, hfe] at heq
        exact Except.noConfusion heq

/-! Shared consequences for wildcard-free inputs. -/

theorem globResolveNoWildDedup (gl : String) (gr : String → String)
    (registry : Registry) (repo : String) (l : List Entry) (sk : String)
    (lg : Bool) (hWF : ∀ e ∈ l, entryWF e)
    (hnw : ∀ e ∈ l, e.filter (fun kv => kv.2.toList.contains '*') = [])
    (rmw : Bool) :
    glob_read_write gl gr registry repo l sk lg rmw =
      .ok (remove_dictlist_dupes l) := by
  have h := globLoop_nowild (if lg then gl else gr repo) registry sk rmw l [] hnw
  cases rmw with
  | true =>
    simp at h
    simp only [glob_read_write, h]
  | false =>
    simp at h
    simp only [glob_read_write, h]
    unfold remove_dictlist_dupes
    rw [dedupGo_dupEach l [] hWF]

theorem globResolveNoWildId (gl : String) (gr : String → String)
    (registry : Registry) (repo : String) (l : List Entry) (sk : String)
    (lg : Bool) (hWF : ∀ e ∈ l, entryWF e)
    (hnw : ∀ e ∈ l, e.filter (fun kv => kv.2.toList.contains '*') = [])
    (hpw : l.Pairwise (fun a b => entryEq a b = false)) (rmw : Bool) :
    glob_read_write gl gr registry repo l sk lg rmw = .ok l := by
  rw [globResolveNoWildDedup gl gr registry repo l sk lg hWF hnw rmw]
  unfold remove_dictlist_dupes
  rw [dedupGo_of_pairwise l [] (by simp) hpw]

/-- C1: an input list containing an entry with two or more wildcard-bearing
values makes `glob_read_write` fail with the multiple-globbable error
condition (the spec's `InvalidConfiguration`, raised in the source as
`fdp_exc.NotImplementedError`) and return no resolved list at all,
regardless of how many entries precede the failing one; the registry is
only assumed to honour its interface (every result row carries the search
key). -/
theorem glob_read_write_multiwildcard_aborts (gl : String)
    (gr : String → String) (registry : Registry) (repo : String)
    (l : List Entry) (sk : String) (lg rmw : Bool)
    (hreg : ∀ u k p, ∀ r ∈ registry u k p, (entryGet r sk).isSome = true)
    (hmulti : ∃ e ∈ l,
      2 ≤ (e.filter (fun kv => kv.2.toList.contains '*')).length) :
    glob_read_write gl gr registry repo l sk lg rmw =
      .error .notImplementedError := by
  have h := globLoop_multiwild (if lg then gl else gr repo) registry sk rmw l []
    hreg hmulti
  simp only [glob_read_write, h]

/-- Witness for C1: a two-entry list whose second entry has two
wildcard-bearing values is rejected whole, although the first entry
would have resolved. -/
theorem glob_read_write_multiwildcard_aborts_witness :
    glob_read_write "uri" (fun _ => "remote") (fun _ _ _ => [[("name", "n1")]])
      "repo" [[("name", "ok")], [("a", "x*"), ("b", "y*")]] "name" true false =
      .error .notImplementedError :=
  glob_read_write_multiwildcard_aborts "uri" (fun _ => "remote")
    (fun _ _ _ => [[("name", "n1")]]) "repo"
    [[("name", "ok")], [("a", "x*"), ("b", "y*")]] "name" true false
    (by
      intro u k p
      show ∀ r ∈ [[("name", "n1")]], (entryGet r "name").isSome = true
      decide)
    ⟨[("a", "x*"), ("b", "y*")], by simp, by decide⟩

/-- C4: on a wildcard-free input list `glob_read_write` returns the input
unchanged up to deduplication, and on a duplicate-free wildcard-free input
it returns the input itself, element for element and in order, for every
value of `remove_wildcard`. -/
theorem glob_read_write_nowild_unchanged (gl : String) (gr : String → String)
    (registry : Registry) (repo : String) (l : List Entry) (sk : String)
    (lg : Bool) (hWF : ∀ e ∈ l, entryWF e)
    (hnw : ∀ e ∈ l, e.filter (fun kv => kv.2.toList.contains '*') = []) :
    (∀ rmw, glob_read_write gl gr registry repo l sk lg rmw =
      .ok (remove_dictlist_dupes l)) ∧
    (l.Pairwise (fun a b => entryEq a b = false) →
      ∀ rmw, glob_read_write gl gr registry repo l sk lg rmw = .ok l) :=
  ⟨fun rmw => globResolveNoWildDedup gl gr registry repo l sk lg hWF hnw rmw,
    fun hpw rmw => globResolveNoWildId gl gr registry repo l sk lg hWF hnw hpw rmw⟩

/-- Witness for C4: a duplicate-free wildcard-free two-entry list comes back
untouched with `remove_wildcard` false. -/
theorem glob_read_write_nowild_unchanged_witness :
    glob_read_write "uri" (fun _ => "remote") (fun _ _ _ => []) "repo"
      [[("name", "a")], [("name", "b")]] "name" true false =
      .ok [[("name", "a")], [("name", "b")]] :=
  (glob_read_write_nowild_unchanged "uri" (fun _ => "remote") (fun _ _ _ => [])
    "repo" [[("name", "a")], [("name", "b")]] "name" true
    (by decide) (by decide)).2 (by decide) false

/-- C2: for an entry with exactly one wildcard-bearing key-value pair
`(key_glob, globbable)`, the loop queries the registry at the selected URI
with object kind `key_glob` and scoping parameter `{search_key: globbable}`
and contributes one clone per result row, each identical to the original
entry except that the globbable key now carries that row's value under
`search_key`; the wrapper returns those contributions after
deduplication. -/
theorem glob_single_wildcard_expands (uri : String) (gr : String → String)
    (registry : Registry) (repo : String) (sk : String) (rmw : Bool)
    (entry : Entry) (kg gv : String)
    (hglob : entry.filter (fun kv => kv.2.toList.contains '*') = [(kg, gv)])
    (hrows : ∀ r ∈ registry uri kg [(sk, gv)], (entryGet r sk).isSome = true) :
    globLoop uri registry sk rmw [entry] [] =
      .ok ((if rmw then [] else [entry]) ++
        (registry uri kg [(sk, gv)]).map
          (fun r => entrySet entry kg ((entryGet r sk).getD ""))) ∧
    glob_read_write uri gr registry repo [entry] sk true rmw =
      .ok (remove_dictlist_dupes ((if rmw then [] else [entry]) ++
        (registry uri kg [(sk, gv)]).map
          (fun r => entrySet entry kg ((entryGet r sk).getD "")))) := by
  have hok := collectClones_ok entry kg sk (registry uri kg [(sk, gv)]) hrows
  have hloop : globLoop uri registry sk rmw [entry] [] =
      .ok ((if rmw then [] else [entry]) ++
        (registry uri kg [(sk, gv)]).map
          (fun r => entrySet entry kg ((entryGet r sk).getD ""))) := by
    simp only [globLoop, hglob, hok]
    cases rmw <;> simp [globLoop]
  refine ⟨hloop, ?_⟩
  simp only [glob_read_write, if_pos, hloop]

/-- Witness for C2: one wildcard entry, two result rows, two clones. -/
theorem glob_single_wildcard_expands_witness :
    glob_read_write "uri" (fun _ => "remote")
      (fun _ _ _ => [[("name", "dataset-1")], [("name", "dataset-2")]])
      "repo" [[("name", "dataset-*")]] "name" true true =
      .ok [[("name", "dataset-1")], [("name", "dataset-2")]] :=
  ((glob_single_wildcard_expands "uri" (fun _ => "remote")
    (fun _ _ _ => [[("name", "dataset-1")], [("name", "dataset-2")]])
    "repo" "name" true [("name", "dataset-*")] "name" "dataset-*"
    (by decide)
    (by
      show ∀ r ∈ [[("name", "dataset-1")], [("name", "dataset-2")]],
        (entryGet r "name").isSome = true
      decide)).2).trans (by rfl)

/-- C5: with `remove_wildcard` false, a single-entry input with one
wildcard-bearing value yields an output that keeps the original wildcard
entry first, followed by its expansions (deduplicated against it). -/
theorem glob_keep_wildcard_original_first (uri : String) (gr : String → String)
    (registry : Registry) (repo : String) (sk : String)
    (entry : Entry) (kg gv : String)
    (hglob : entry.filter (fun kv => kv.2.toList.contains '*') = [(kg, gv)])
    (hrows : ∀ r ∈ registry uri kg [(sk, gv)], (entryGet r sk).isSome = true) :
    globLoop uri registry sk false [entry] [] =
      .ok (entry ::
        (registry uri kg [(sk, gv)]).map
          (fun r => entrySet entry kg ((entryGet r sk).getD ""))) ∧
    glob_read_write uri gr registry repo [entry] sk true false =
      .ok (entry :: dedupGo [entry]
        ((registry uri kg [(sk, gv)]).map
          (fun r => entrySet entry kg ((entryGet r sk).getD "")))) := by
  have h := glob_single_wildcard_expands uri gr registry repo sk false entry
    kg gv hglob hrows
  simp only [Bool.false_eq_true, if_neg, not_false_iff, List.singleton_append] at h
  refine ⟨h.1, ?_⟩
  rw [h.2]
  simp [remove_dictlist_dupes, dedupGo]

/-- Witness for C5: the spec's scenario, keeping the wildcard original ahead
of its two expansions. -/
theorem glob_keep_wildcard_original_first_witness :
    glob_read_write "uri" (fun _ => "remote")
      (fun _ _ _ => [[("name", "dataset-1")], [("name", "dataset-2")]])
      "repo" [[("name", "dataset-*")]] "name" true false =
      .ok [[("name", "dataset-*")], [("name", "dataset-1")],
        [("name", "dataset-2")]] :=
  ((glob_keep_wildcard_original_first "uri" (fun _ => "remote")
    (fun _ _ _ => [[("name", "dataset-1")], [("name", "dataset-2")]])
    "repo" "name" [("name", "dataset-*")] "name" "dataset-*"
    (by decide)
    (by
      show ∀ r ∈ [[("name", "dataset-1")], [("name", "dataset-2")]],
        (entryGet r "name").isSome = true
      decide)).2).trans (by rfl)

/-- C6: whenever `glob_read_write` succeeds, its output is the
deduplication of the accumulated list: duplicate-free under full structural
entry equality, a sublist of the accumulated list (so first-seen order is
preserved), covering every accumulated entry, and keeping exactly the first
occurrence of each distinct entry. -/
theorem glob_read_write_output_dupfree (gl : String) (gr : String → String)
    (registry : Registry) (repo : String) (l : List Entry) (sk : String)
    (lg rmw : Bool) (out : List Entry)
    (hWF : ∀ e ∈ l, entryWF e)
    (hok : glob_read_write gl gr registry repo l sk lg rmw = .ok out) :
    out.Pairwise (fun a b => entryEq a b = false) ∧
    ∃ parsed,
      globLoop (if lg then gl else gr repo) registry sk rmw l [] = .ok parsed ∧
      out = remove_dictlist_dupes parsed ∧
      List.Sublist out parsed ∧
      (∀ e ∈ parsed, ∃ d ∈ out, entryEq d e = true) ∧
      (∀ pre e post, parsed = pre ++ e :: post →
        (∀ x ∈ pre, entryEq x e = false) → e ∈ out) := by
  cases hloop : globLoop (if lg then gl else gr repo) registry sk rmw l [] with
  | error err =>
    simp only [glob_read_write, hloop] at hok
    exact Except.noConfusion hok
  | ok parsed =>
    simp only [glob_read_write, hloop] at hok
    have hout : out = remove_dictlist_dupes parsed := by
      injection hok with h
      exact h.symm
    have hWFp : ∀ e ∈ parsed, entryWF e :=
      globLoop_WF _ registry sk rmw l [] parsed (by simp) hWF hloop
    subst hout
    refine ⟨(dedupGo_pairwise parsed []).1, parsed, rfl, rfl,
      dedupGo_sublist parsed [], ?_, ?_⟩
    · intro e he
      rcases dedupGo_complete parsed [] hWFp e he with h | ⟨s, hs, _⟩
      · exact h
      · simp at hs
    · intro pre e post hsplit hpre
      subst hsplit
      exact dedupGo_keeps_first pre [] e post (by simp) hpre

/-- Witness for C6: a run whose registry returns a duplicated row has a
duplicate-free output. -/
theorem glob_read_write_output_dupfree_witness :
    List.Pairwise (fun a b => entryEq a b = false)
      [[("name", "dataset-1")], [("name", "dataset-2")]] :=
  (glob_read_write_output_dupfree "uri" (fun _ => "remote")
    (fun _ _ _ => [[("name", "dataset-1")], [("name", "dataset-1")],
      [("name", "dataset-2")]])
    "repo" [[("name", "dataset-*")]] "name" true true
    [[("name", "dataset-1")], [("name", "dataset-2")]]
    (by decide) (by rfl)).1

/-- C7: a successfully resolved output with no remaining wildcard values is
a fixed point: resolving it again, with any endpoint, registry, search key
or flag values, returns it unchanged. -/
theorem glob_read_write_idempotent (gl : String) (gr : String → String)
    (registry : Registry) (repo : String) (l : List Entry) (sk : String)
    (lg rmw : Bool) (out : List Entry)
    (hWF : ∀ e ∈ l, entryWF e)
    (hok : glob_read_write gl gr registry repo l sk lg rmw = .ok out)
    (hnw : ∀ e ∈ out, e.filter (fun kv => kv.2.toList.contains '*') = []) :
    ∀ (gl2 : String) (gr2 : String → String) (registry2 : Registry)
      (repo2 sk2 : String) (lg2 rmw2 : Bool),
      glob_read_write gl2 gr2 registry2 repo2 out sk2 lg2 rmw2 = .ok out := by
  intro gl2 gr2 registry2 repo2 sk2 lg2 rmw2
  cases hloop : globLoop (if lg then gl else gr repo) registry sk rmw l [] with
  | error err =>
    simp only [glob_read_write, hloop] at hok
    exact Except.noConfusion hok
  | ok parsed =>
    simp only [glob_read_write, hloop] at hok
    have hout : out = remove_dictlist_dupes parsed := by
      injection hok with h
      exact h.symm
    have hWFp : ∀ e ∈ parsed, entryWF e :=
      globLoop_WF _ registry sk rmw l [] parsed (by simp) hWF hloop
    have hWFout : ∀ e ∈ out, entryWF e := by
      intro e he
      apply hWFp
      apply List.Sublist.subset (dedupGo_sublist parsed [])
      rw [hout] at he
      exact he
    have hpw : out.Pairwise (fun a b => entryEq a b = false) := by
      rw [hout]
      exact (dedupGo_pairwise parsed []).1
    exact globResolveNoWildId gl2 gr2 registry2 repo2 out sk2 lg2 hWFout hnw
      hpw rmw2

/-- Witness for C7: the expanded output of the C2 scenario re-resolves to
itself under a different registry, search key and flags. -/
theorem glob_read_write_idempotent_witness :
    glob_read_write "u2" (fun _ => "r2") (fun _ _ _ => [[("x", "y")]]) "repo2"
      [[("name", "dataset-1")], [("name", "dataset-2")]] "other" false true =
      .ok [[("name", "dataset-1")], [("name", "dataset-2")]] :=
  glob_read_write_idempotent "uri" (fun _ => "remote")
    (fun _ _ _ => [[("name", "dataset-1")], [("name", "dataset-2")]]) "repo"
    [[("name", "dataset-*")]] "name" true true
    [[("name", "dataset-1")], [("name", "dataset-2")]]
    (by decide) (by rfl) (by decide)
    "u2" (fun _ => "r2") (fun _ _ _ => [[("x", "y")]]) "repo2" "other" false
    true

/-- C3: launching while a server already answers health checks at the
configured URL is a no-op that reports the existing instance as the result:
the state (Server Process Record and spawn count) is returned unchanged, so
no second subprocess is spawned and the state directory keeps its single
(optional) record. -/
theorem launch_server_healthy_noop (health_after_spawn : Nat → Bool)
    (attempts port : Nat) (s : RegistryState) :
    launch_server true health_after_spawn attempts port s =
      (s, .existingInstance) :=
  rfl

/-- C9: a recovered `FAIRCLIException` maps to a non-zero exit code only
when its severity level lowercases to "error"; a "warning"-severity
exception is printed and the process exits zero. -/
theorem fair_cli_exit_code_policy (level : String) (exit_code : Nat) :
    ((fair_command_boundary (.raised level exit_code)).exitCode ≠ 0 →
      str_lower level = "error") ∧
    (str_lower level = "warning" →
      fair_command_boundary (.raised level exit_code) = ⟨true, 0⟩) := by
  constructor
  · intro hne
    by_cases h : (str_lower level == "error") = true
    · exact beq_iff_eq.mp h
    · exfalso
      apply hne
      simp [fair_command_boundary, h]
  · intro hw
    have h : (str_lower level == "error") = false := by
      rw [hw]
      decide
    simp [fair_command_boundary, h]

/-- Witness for C9: a mixed-case "Warning" severity prints and exits
zero. -/
theorem fair_cli_exit_code_policy_witness :
    fair_command_boundary (.raised "Warning" 1) = ⟨true, 0⟩ :=
  (fair_cli_exit_code_policy "Warning" 1).2 (by decide)

/-! Lemmas about the upward search of `find_fair_root`. -/

theorem dropLast_extends_ancestry : ∀ (p t cur : List String), cur = p ++ t →
    ∃ t2, cur = p.dropLast ++ t2 := by
  intro p
  induction p with
  | nil =>
    intro t cur h
    exact ⟨t, by simpa using h⟩
  | cons a as ih =>
    intro t cur h
    cases as with
    | nil => exact ⟨a :: t, by simpa using h⟩
    | cons b bs =>
      obtain ⟨t2, ht2⟩ := ih t ((b :: bs) ++ t) rfl
      refine ⟨t2, ?_⟩
      rw [h]
      simp only [List.cons_append, List.dropLast_cons₂]
      simp only [List.cons_append] at ht2
      exact congrArg (List.cons a) ht2

theorem find_fair_root_outside_home (exf : List String → Bool)
    (home cur : List String)
    (hnp : ∀ t, cur ≠ home ++ t)
    (hnf : ∀ p t, cur = p ++ t → exf p = false) :
    ∀ (fuel : Nat) (sub : List String) (b : Bool), (∃ t, cur = sub ++ t) →
    find_fair_root exf home fuel sub b = none := by
  intro fuel
  induction fuel with
  | zero =>
    intro sub b _
    rfl
  | succ n ih =>
    intro sub b hsub
    obtain ⟨t, ht⟩ := hsub
    have hne : (sub == home) = false := by
      cases hb : sub == home with
      | false => rfl
      | true =>
        exfalso
        apply hnp t
        rw [← beq_iff_eq.mp hb]
        exact ht
    have hexf : exf sub = false := hnf sub t ht
    simp [find_fair_root, hne, hexf]
    exact ih sub.dropLast false (dropLast_extends_ancestry sub t cur ht)

theorem find_fair_root_below_home (exf : List String → Bool)
    (home : List String) :
    ∀ (fuel : Nat) (cur : List String), (∃ t, cur = home ++ t) →
    cur.length < fuel →
    find_fair_root exf home fuel cur false =
      some (nearest_fair_ancestor exf home fuel cur) := by
  intro fuel
  induction fuel with
  | zero =>
    intro cur _ hlen
    exact absurd hlen (Nat.not_lt_zero _)
  | succ n ih =>
    intro cur hpre hlen
    obtain ⟨t, ht⟩ := hpre
    by_cases hch : cur = home
    · have hbe : (cur == home) = true := beq_iff_eq.mpr hch
      simp [find_fair_root, nearest_fair_ancestor, hbe]
    · have hbe : (cur == home) = false := by
        cases hb : cur == home with
        | false => rfl
        | true => exact absurd (beq_iff_eq.mp hb) hch
      cases hex : exf cur with
      | true => simp [find_fair_root, nearest_fair_ancestor, hbe, hex]
      | false =>
        simp only [find_fair_root, nearest_fair_ancestor, hbe, hex,
          Bool.not_false, Bool.true_and, Bool.false_eq_true, if_false]
        apply ih
        · cases t with
          | nil => exact absurd (by simpa using ht) hch
          | cons x ts =>
            refine ⟨(x :: ts).dropLast, ?_⟩
            rw [ht, List.dropLast_append_cons]
        · have hne : cur ≠ [] := by
            intro hnil
            apply hch
            rw [hnil] at ht
            obtain ⟨h1, h2⟩ := List.append_eq_nil.mp ht.symm
            rw [hnil, h1]
          rw [List.length_dropLast]
          have : 0 < cur.length := List.length_pos.mpr hne
          omega

/-- C10 (amended): for a start directory strictly below the home directory,
`find_fair_root` terminates within `length + 1` iterations and returns the
nearest ancestor (from the start up to but excluding home) containing
`.fair`, or the empty-string result when none does; for a start directory
outside the home hierarchy with no `.fair` at any ancestor, the loop's
stopping condition is never reached for any amount of fuel. -/
theorem find_fair_root_characterisation (exf : List String → Bool)
    (home : List String) :
    (∀ (t cur : List String), t ≠ [] → cur = home ++ t →
      find_fair_root exf home (cur.length + 1) cur true =
        some (nearest_fair_ancestor exf home (cur.length + 1) cur)) ∧
    (∀ cur, (∀ t, cur ≠ home ++ t) → (∀ p t, cur = p ++ t → exf p = false) →
      ∀ (fuel : Nat) (b : Bool), find_fair_root exf home fuel cur b = none) := by
  constructor
  · intro t cur htne hcur
    have hch : cur ≠ home := by
      intro h
      apply htne
      have happ : home ++ t = home ++ [] := by
        rw [List.append_nil, ← hcur, h]
      exact List.append_cancel_left happ
    have hbe : (cur == home) = false := by
      cases hb : cur == home with
      | false => rfl
      | true => exact absurd (beq_iff_eq.mp hb) hch
    cases hex : exf cur with
    | true => simp [find_fair_root, nearest_fair_ancestor, hbe, hex]
    | false =>
      simp only [find_fair_root, nearest_fair_ancestor, hbe, hex,
        Bool.not_true, Bool.false_and, Bool.false_eq_true, if_false]
      apply find_fair_root_below_home
      · cases t with
        | nil => exact absurd rfl htne
        | cons x ts =>
          refine ⟨(x :: ts).dropLast, ?_⟩
          rw [hcur, List.dropLast_append_cons]
      · have hne : cur ≠ [] := by
          rw [hcur]
          cases t with
          | nil => exact absurd rfl htne
          | cons x ts => simp
        rw [List.length_dropLast]
        have : 0 < cur.length := List.length_pos.mpr hne
        omega
  · intro cur hnp hnf fuel b
    exact find_fair_root_outside_home exf home cur hnp hnf fuel cur b
      ⟨[], by simp⟩

/-- Witness for C10 (amended): both for the strictly-below-home search and
its outcome on a concrete file system. -/
theorem find_fair_root_characterisation_witness :
    find_fair_root (fun p => p == ["home", "u", "proj"]) ["home", "u"] 5
      ["home", "u", "proj", "sub"] true =
      some (nearest_fair_ancestor (fun p => p == ["home", "u", "proj"])
        ["home", "u"] 5 ["home", "u", "proj", "sub"]) :=
  (find_fair_root_characterisation (fun p => p == ["home", "u", "proj"])
    ["home", "u"]).1 ["proj", "sub"] ["home", "u", "proj", "sub"]
    (by decide) (by decide)

/-- Counterexample to C10 as stated: starting exactly at the home directory
(start "at ... the user's home directory"), the code's first loop comparison
is a Python `str` against a `Path`, which is always unequal, so the home
directory itself is searched: with `.fair` present only in home the code
returns home, while the claim's nearest-ancestor-excluding-home reading
returns the empty string. -/
theorem find_fair_root_home_start_counterexample :
    find_fair_root (fun p => p == ["home", "user"]) ["home", "user"] 3
      ["home", "user"] true = some (some ["home", "user"]) ∧
    nearest_fair_ancestor (fun p => p == ["home", "user"]) ["home", "user"] 3
      ["home", "user"] = none ∧
    find_fair_root (fun p => p == ["home", "user"]) ["home", "user"] 3
      ["home", "user"] true ≠
      some (nearest_fair_ancestor (fun p => p == ["home", "user"])
        ["home", "user"] 3 ["home", "user"]) := by
  refine ⟨rfl, rfl, ?_⟩
  decide

/-! Frame lemmas for the heap model. -/

theorem set_append_length (l : List Entry) (x y : Entry) :
    (l ++ [x]).set l.length y = l ++ [y] := by
  induction l with
  | nil => rfl
  | cons a as ih => simp [List.set, ih]

theorem getD_append_left (l l2 : List Entry) (i : Nat) (hi : i < l.length) :
    (l ++ l2).getD i [] = l.getD i [] := by
  induction l generalizing i with
  | nil => simp at hi
  | cons a as ih =>
    cases i with
    | zero => rfl
    | succ n =>
      simp only [List.cons_append, List.getD_cons_succ]
      exact ih n (by simpa using hi)

theorem cloneLoopHeap_frame (entry : Entry) (key_glob search_key : String) :
    ∀ (rows : List Entry) (h h2 : Heap) (cs : List Nat),
    cloneLoopHeap entry key_glob search_key rows h = .ok (h2, cs) →
    (∃ ext, h2.cells = h.cells ++ ext) ∧ ∀ a ∈ cs, h.cells.length ≤ a := by
  intro rows
  induction rows with
  | nil =>
    intro h h2 cs heq
    simp only [cloneLoopHeap] at heq
    injection heq with hpair
    have heh : h = h2 := congrArg Prod.fst hpair
    have hec : ([] : List Nat) = cs := congrArg Prod.snd hpair
    subst heh
    subst hec
    exact ⟨⟨[], by simp⟩, by simp⟩
  | cons r rest ih =>
    intro h h2 cs heq
    cases hg : entryGet r search_key with
    | none =>
      simp only [cloneLoopHeap, hg] at heq
      exact Except.noConfusion heq
    | some v =>
      cases hrec : cloneLoopHeap entry key_glob search_key rest
          (heapStore (heapAlloc h entry).1 (heapAlloc h entry).2
            (entrySet entry key_glob v)) with
      | error e =>
        simp only [cloneLoopHeap, hg, hrec] at heq
        exact Except.noConfusion heq
      | ok hc =>
        simp only [cloneLoopHeap, hg, hrec] at heq
        injection heq with hpair
        have heh : hc.1 = h2 := congrArg Prod.fst hpair
        have hec : (heapAlloc h entry).2 :: hc.2 = cs := congrArg Prod.snd hpair
        have hcell : (heapStore (heapAlloc h entry).1 (heapAlloc h entry).2
            (entrySet entry key_glob v)).cells =
            h.cells ++ [entrySet entry key_glob v] := by
          simp [heapStore, heapAlloc, set_append_length]
        obtain ⟨⟨ext, hext⟩, hge⟩ := ih _ hc.1 hc.2 hrec
        rw [hcell] at hext
        constructor
        · refine ⟨entrySet entry key_glob v :: ext, ?_⟩
          rw [← heh, hext]
          simp
        · intro a ha
          rw [← hec] at ha
          rcases List.mem_cons.mp ha with rfl | ha'
          · exact Nat.le_refl _
          · have := hge a ha'
            rw [hcell] at this
            simp at this
            omega

theorem globLoopHeap_frame (uri : String) (registry : Registry) (sk : String)
    (rmw : Bool) : ∀ (addrs parsed : List Nat) (h h2 : Heap) (out : List Nat),
    globLoopHeap uri registry sk rmw addrs parsed h = .ok (h2, out) →
    (∃ ext, h2.cells = h.cells ++ ext) ∧
    ∀ a ∈ out, a ∈ parsed ∨ a ∈ addrs ∨ h.cells.length ≤ a := by
  intro addrs
  induction addrs with
  | nil =>
    intro parsed h h2 out heq
    simp only [globLoopHeap] at heq
    injection heq with hpair
    have heh : h = h2 := congrArg Prod.fst hpair
    have hec : parsed = out := congrArg Prod.snd hpair
    subst heh
    subst hec
    exact ⟨⟨[], by simp⟩, fun a ha => .inl ha⟩
  | cons a rest ih =>
    intro parsed h h2 out heq
    cases hfe : (heapLoad h a).filter (fun kv => kv.2.toList.contains '*') with
    | nil =>
      simp only [globLoopHeap, hfe] at heq
      obtain ⟨hext, hmem⟩ := ih _ h h2 out heq
      refine ⟨hext, ?_⟩
      intro x hx
      rcases hmem x hx with h1 | h2' | h3
      · rcases List.mem_append.mp h1 with hp | hpa
        · cases rmw with
          | true =>
            simp only [if_pos] at hp
            exact .inl hp
          | false =>
            simp only [Bool.false_eq_true, if_neg, not_false_iff] at hp
            rcases List.mem_append.mp hp with hp' | hp''
            · exact .inl hp'
            · have : x = a := by simpa using hp''
              subst this
              exact .inr (.inl (List.mem_cons_self _ _))
        · have : x = a := by simpa using hpa
          subst this
          exact .inr (.inl (List.mem_cons_self _ _))
      · exact .inr (.inl (List.mem_cons_of_mem _ h2'))
      · exact .inr (.inr h3)
    | cons kv tail =>
      obtain ⟨kg, gv⟩ := kv
      cases tail with
      | nil =>
        cases hcl : cloneLoopHeap (heapLoad h a) kg sk
            (registry uri kg [(sk, gv)]) h with
        | error e =>
          simp only [globLoopHeap, hfe, hcl] at heq
          exact Except.noConfusion heq
        | ok hc =>
          simp only [globLoopHeap, hfe, hcl] at heq
          obtain ⟨⟨ext1, hext1⟩, hfresh⟩ :=
            cloneLoopHeap_frame (heapLoad h a) kg sk _ h hc.1 hc.2 hcl
          obtain ⟨⟨ext2, hext2⟩, hmem⟩ := ih _ hc.1 h2 out heq
          have hlen1 : h.cells.length ≤ hc.1.cells.length := by
            rw [hext1]
            simp
          refine ⟨⟨ext1 ++ ext2, by rw [hext2, hext1, List.append_assoc]⟩, ?_⟩
          intro x hx
          rcases hmem x hx with h1 | h2' | h3
          · rcases List.mem_append.mp h1 with hp | hpc
            · cases rmw with
              | true =>
                simp only [if_pos] at hp
                exact .inl hp
              | false =>
                simp only [Bool.false_eq_true, if_neg, not_false_iff] at hp
                rcases List.mem_append.mp hp with hp' | hp''
                · exact .inl hp'
                · have : x = a := by simpa using hp''
                  subst this
                  exact .inr (.inl (List.mem_cons_self _ _))
            · exact .inr (.inr (hfresh x hpc))
          · exact .inr (.inl (List.mem_cons_of_mem _ h2'))
          · exact .inr (.inr (Nat.le_trans hlen1 h3))
      | cons kv2 tail2 =>
        simp only [globLoopHeap, hfe] at heq
        exact Except.noConfusion heq

theorem dedupAddrsGo_subset (h : Heap) : ∀ (l : List Nat) (seen : List Entry),
    ∀ a ∈ dedupAddrsGo h seen l, a ∈ l := by
  intro l
  induction l with
  | nil =>
    intro seen a ha
    simp [dedupAddrsGo] at ha
  | cons x rest ih =>
    intro seen a ha
    cases hany : seen.any (fun y => entryEq y (heapLoad h x)) with
    | true =>
      simp only [dedupAddrsGo, hany, if_pos] at ha
      exact List.mem_cons_of_mem _ (ih seen a ha)
    | false =>
      simp only [dedupAddrsGo, hany, Bool.false_eq_true, if_neg,
        not_false_iff] at ha
      rcases List.mem_cons.mp ha with rfl | ha'
      · exact List.mem_cons_self _ _
      · exact List.mem_cons_of_mem _ (ih _ a ha')

/-- C8: the heap model of `glob_read_write` mutates no caller-visible
state: every cell that existed before the call is unchanged afterwards (so
the input list and every entry dict in it are untouched), every output
address is either one of the input addresses (a retained original) or a
freshly allocated cell, and the clone loop in particular writes each
expanded entry to a fresh address, never aliasing a pre-existing one. -/
theorem glob_read_write_heap_frame (gl : String) (gr : String → String)
    (registry : Registry) (repo : String) (addrs : List Nat) (sk : String)
    (lg rmw : Bool) (h h2 : Heap) (out : List Nat)
    (hok : glob_read_write_heap gl gr registry repo addrs sk lg rmw h =
      .ok (h2, out)) :
    ((∀ i, i < h.cells.length → h2.cells.getD i [] = h.cells.getD i []) ∧
      ∀ a ∈ out, a ∈ addrs ∨ h.cells.length ≤ a) ∧
    ∀ (entry : Entry) (kg skq : String) (rows : List Entry)
      (hh hh2 : Heap) (cs : List Nat),
      cloneLoopHeap entry kg skq rows hh = .ok (hh2, cs) →
      ∀ a ∈ cs, hh.cells.length ≤ a := by
  constructor
  · cases hloop : globLoopHeap (if lg then gl else gr repo) registry sk rmw
        addrs [] h with
    | error e =>
      simp only [glob_read_write_heap, hloop] at hok
      exact Except.noConfusion hok
    | ok hp =>
      simp only [glob_read_write_heap, hloop] at hok
      injection hok with hpair
      have heh : hp.1 = h2 := congrArg Prod.fst hpair
      have hec : dedupAddrsGo hp.1 [] hp.2 = out := congrArg Prod.snd hpair
      obtain ⟨⟨ext, hext⟩, hmem⟩ :=
        globLoopHeap_frame (if lg then gl else gr repo) registry sk rmw
          addrs [] h hp.1 hp.2 hloop
      constructor
      · intro i hi
        rw [← heh, hext]
        exact getD_append_left h.cells ext i hi
      · intro a ha
        rw [← hec] at ha
        have hin : a ∈ hp.2 := dedupAddrsGo_subset hp.1 hp.2 [] a ha
        rcases hmem a hin with h1 | h2' | h3
        · simp at h1
        · exact .inl h2'
        · exact .inr h3
  · intro entry kg skq rows hh hh2 cs hcl
    exact (cloneLoopHeap_frame entry kg skq rows hh hh2 cs hcl).2

/-- Witness for C8: in the C5 scenario the pre-existing wildcard entry cell
is unchanged by the call. -/
theorem glob_read_write_heap_frame_witness :
    (⟨[[("name", "dataset-*")], [("name", "dataset-1")],
      [("name", "dataset-2")]]⟩ : Heap).cells.getD 0 [] =
      (⟨[[("name", "dataset-*")]]⟩ : Heap).cells.getD 0 [] :=
  ((glob_read_write_heap_frame "local" (fun _ => "remote")
    (fun _ _ _ => [[("name", "dataset-1")], [("name", "dataset-2")]])
    "repo" [0] "name" true false (⟨[[("name", "dataset-*")]]⟩ : Heap)
    (⟨[[("name", "dataset-*")], [("name", "dataset-1")],
      [("name", "dataset-2")]]⟩ : Heap) [0, 1, 2] (by rfl)).1).1 0
    (by decide)
